import Mathlib

/-!
Verification of the nxt-scanner reconciliation, aggregation and
anomaly-lifecycle engine (storage_scanner/rules.py and
storage_scanner/notion_sync.py), via a shallow embedding:

* the folder-name classifier (rules.validate_folder) is embedded as a
  character-level matcher for the two anchored regexes PATTERN and
  PROJECT_PATTERN, restricted to ASCII digit/whitespace classes, with
  re.IGNORECASE modelled through sre's simple-lowercase folding
  including its non-ASCII case pairs that can reach this pattern's
  letters (KELVIN SIGN, LATIN CAPITAL LETTER I WITH DOT ABOVE, DOTLESS
  I, LONG S);
* sizes (Python floats holding values rounded to a fixed number of
  decimals) are modelled as rationals, with Python round() modelled as
  round-half-to-even;
* the Notion store is modelled as lists of typed records, soft-delete
  as an archived flag, and the store-mutating functions as state
  transformers.
-/

/-! Python-semantics helpers -/

/-- Python truthiness of an optional string: None and the empty string
are falsy. -/
def pyTruthy : Option String → Bool
  | none => false
  | some s => !(s = "")

/-- Python `x or None`-style normalisation: a falsy optional string
collapses to none. -/
def optTruthy : Option String → Option String
  | none => none
  | some s => if s = "" then none else some s

/-- Round a rational to the nearest integer, ties to even (the rounding
used by Python round()). -/
def roundHalfEven (q : ℚ) : ℤ :=
  let f := ⌊q⌋
  let frac := q - (f : ℚ)
  if frac < 1/2 then f
  else if 1/2 < frac then f + 1
  else if f % 2 = 0 then f else f + 1

/-- Python round(q, n) on exact rational values. -/
def pyRound (q : ℚ) (n : ℕ) : ℚ :=
  ((roundHalfEven (q * (10 : ℚ) ^ n) : ℤ) : ℚ) / (10 : ℚ) ^ n

/-- Python max() over a list of rationals (0 on the empty list, which
never occurs on the code paths modelled here). -/
def pyMaxList : List ℚ → ℚ
  | [] => 0
  | x :: xs => xs.foldl max x

/-- Python min() over a list of rationals. -/
def pyMinList : List ℚ → ℚ
  | [] => 0
  | x :: xs => xs.foldl min x

/-! Classifier: storage_scanner/rules.py -/

/-- ASCII model of the Python regex class \s. -/
def isPySpace (c : Char) : Bool :=
  c = ' ' || c = '\t' || c = '\n' || c = '\r' || c = '\x0b' || c = '\x0c'

/-- Numeric value of an ASCII digit. -/
def digitVal (c : Char) : ℕ := c.toNat - '0'.toNat

/-- Shape of the date group \d{4}-\d{2}-\d{2}. -/
def dateShape : List Char → Bool
  | [y1, y2, y3, y4, s1, m1, m2, s2, d1, d2] =>
    y1.isDigit && y2.isDigit && y3.isDigit && y4.isDigit && s1 = '-' &&
    m1.isDigit && m2.isDigit && s2 = '-' && d1.isDigit && d2.isDigit
  | _ => false

/-- Gregorian leap year, as used by datetime. -/
def isLeapYear (y : ℕ) : Bool := y % 4 = 0 && (!(y % 100 = 0) || y % 400 = 0)

/-- Days in a month, as validated by datetime. -/
def daysInMonth (y m : ℕ) : ℕ :=
  if m = 2 then (if isLeapYear y then 29 else 28)
  else if m = 4 || m = 6 || m = 9 || m = 11 then 30
  else 31

/-- Success of datetime.strptime(date_str, "%Y-%m-%d") on a string that
already has the shape \d{4}-\d{2}-\d{2}: the year must be at least 1
(at most 9999 is implied by the four digits), the month 1..12 and the
day within the month. -/
def strptimeValid : List Char → Bool
  | [y1, y2, y3, y4, _, m1, m2, _, d1, d2] =>
    let y := ((digitVal y1 * 10 + digitVal y2) * 10 + digitVal y3) * 10 + digitVal y4
    let m := digitVal m1 * 10 + digitVal m2
    let d := digitVal d1 * 10 + digitVal d2
    decide (1 ≤ y ∧ 1 ≤ m ∧ m ≤ 12 ∧ 1 ≤ d ∧ d ≤ daysInMonth y m)
  | _ => false

/-- TYPE_ALIASES from rules.py: recognised suffix to canonical type, in
dict insertion order. -/
def TYPE_ALIASES : List (List Char × List Char) :=
  [("FOOTAGE".toList, "FOOTAGE".toList),
   ("VIDEO".toList, "FOOTAGE".toList),
   ("VIDEOS".toList, "FOOTAGE".toList),
   ("PHOTOS".toList, "PHOTOS".toList),
   ("FOTOS".toList, "PHOTOS".toList),
   ("WORKING".toList, "WORKING".toList),
   ("BTS".toList, "BTS".toList),
   ("PROXIES".toList, "PROXIES".toList),
   ("PROXY".toList, "PROXIES".toList)]

/-- The alternatives of the type group of PATTERN, in alternation
order (TYPE_ALIASES.keys()). -/
def aliasKeys : List (List Char) := TYPE_ALIASES.map (fun kv => kv.1)

/-- TYPE_ALIASES.get(raw, raw). -/
def aliasGet (raw : List Char) : List Char :=
  match TYPE_ALIASES.find? (fun kv => kv.1 == raw) with
  | some kv => kv.2
  | none => raw

/-- All characters of the alternation's alternatives. -/
def aliasChars : List Char := aliasKeys.flatten

/-- The character fold CPython's sre engine applies under re.IGNORECASE
in Unicode mode: the simple (single-character) lowercase mapping. It is
modelled exactly on the characters that can interact with this
pattern's ASCII letters: the ASCII case pairs plus KELVIN SIGN and
LATIN CAPITAL LETTER I WITH DOT ABOVE, the only two non-ASCII
characters whose simple lowercase mapping is ASCII; every other
character is left unchanged, which decides a comparison against the
pattern's letters exactly as the real mapping does. -/
def sreLower (c : Char) : Char :=
  if c = '\u212A' then 'k'
  else if c = '\u0130' then 'i'
  else c.toLower

/-- The extra case-equivalence classes sre_compile adds under
IGNORECASE, restricted to the lowercase forms of this pattern's
letters: i with DOTLESS I, s with LONG S, k with KELVIN SIGN; every
other character is alone in its class. -/
def sreEquiv (x : Char) : List Char :=
  if x = 'i' then ['i', '\u0131']
  else if x = 's' then ['s', '\u017F']
  else if x = 'k' then ['k', '\u212A']
  else [x]

/-- One pattern character matches one input character under
re.IGNORECASE: the folded input lies in the equivalence class of the
folded pattern character. -/
def sreIgnoreMatch (a c : Char) : Bool :=
  (sreEquiv (sreLower a)).contains (sreLower c)

/-- Python str.upper() on the characters the alternation can accept:
the full uppercase mapping sends DOTLESS I to I and LONG S to S, while
KELVIN SIGN and LATIN CAPITAL LETTER I WITH DOT ABOVE are uppercase
already and map to themselves; on ASCII it is the usual mapping. -/
def pyUpper (c : Char) : Char :=
  if c = '\u0131' then 'I'
  else if c = '\u017F' then 'S'
  else c.toUpper

/-- Match one alternative against a prefix of the input under
re.IGNORECASE with Unicode case folding; returns the raw matched
characters and the remainder. -/
def matchAlt : List Char → List Char → Option (List Char × List Char)
  | [], cs => some ([], cs)
  | _ :: _, [] => none
  | a :: as, c :: cs =>
    if sreIgnoreMatch a c then
      match matchAlt as cs with
      | some (raw, rest) => some (c :: raw, rest)
      | none => none
    else none

/-- Try the alternatives of the type group in alternation order at the
current position; an alternative succeeds when the continuation \s*$
accepts the remainder. Returns the raw text of group 3. -/
def tryAlts : List (List Char) → List Char → Option (List Char)
  | [], _ => none
  | alt :: rest, cs =>
    match matchAlt alt cs with
    | some (raw, rem) => if rem.all isPySpace then some raw else tryAlts rest cs
    | none => tryAlts rest cs

/-- Lazy search for the underscore closing group 2 of PATTERN: group 2
is (.+?), so the earliest closing position whose continuation
\s*(alternatives)\s*$ succeeds wins; (.) cannot cross a newline, and
the alternatives never start with whitespace, so the \s* before the
type group consumes exactly the maximal whitespace run. Returns
(group 2, raw group 3). -/
def findSplit : List Char → List Char → Option (List Char × List Char)
  | _, [] => none
  | g2rev, c :: rest =>
    if c = '_' && !g2rev.isEmpty then
      match tryAlts aliasKeys (rest.dropWhile isPySpace) with
      | some raw => some (g2rev.reverse, raw)
      | none => findSplit (c :: g2rev) rest
    else if c = '\n' then none
    else findSplit (c :: g2rev) rest

/-- PATTERN.match(name) for
^(\d{4}-\d{2}-\d{2})_(.+?)_\s*(alternatives)\s*$ with IGNORECASE:
returns (group 1, group 2, raw group 3). -/
def matchPATTERN (cs : List Char) : Option (List Char × List Char × List Char) :=
  if dateShape (cs.take 10) then
    match cs.drop 10 with
    | '_' :: r =>
      match findSplit [] r with
      | some (g2, raw) => some (cs.take 10, g2, raw)
      | none => none
    | _ => none
  else none

/-- PROJECT_PATTERN.match(name) for ^(\d{4}-\d{2}-\d{2})_(.+)$: group 2
is the rest of the name (a trailing newline is allowed before $ and not
captured), must be nonempty and contain no newline. -/
def matchPROJECT (cs : List Char) : Option (List Char × List Char) :=
  if dateShape (cs.take 10) then
    match cs.drop 10 with
    | '_' :: r =>
      let body := if r.getLast? = some '\n' then r.dropLast else r
      if !body.isEmpty && !body.contains '\n' then some (cs.take 10, body) else none
    | _ => none
  else none

/-- Python str.strip() restricted to ASCII whitespace. -/
def pyStrip (cs : List Char) : List Char :=
  ((cs.dropWhile isPySpace).reverse.dropWhile isPySpace).reverse

/-- Result record of validate_folder. -/
structure Classification where
  date : List Char
  project_name : List Char
  type : List Char
deriving DecidableEq, Repr

/-- rules.validate_folder: first the typed PATTERN (raw type uppercased
and sent through TYPE_ALIASES, date validated by strptime, returning
None inside this branch when the date is invalid), then the PROJECT
fallback, which is rejected when the stripped project name still
contains an underscore. -/
def validate_folder (cs : List Char) : Option Classification :=
  match matchPATTERN cs with
  | some (date, g2, raw) =>
    if strptimeValid date then
      some { date := date, project_name := pyStrip g2,
             type := aliasGet (raw.map pyUpper) }
    else none
  | none =>
    match matchPROJECT cs with
    | some (date, g2) =>
      if strptimeValid date then
        if (pyStrip g2).contains '_' then none
        else some { date := date, project_name := pyStrip g2, type := "PROJECT".toList }
      else none
    | none => none

/-- The six canonical types after alias resolution. -/
def canonicalTypes : List (List Char) :=
  ["FOOTAGE".toList, "PHOTOS".toList, "WORKING".toList,
   "BTS".toList, "PROXIES".toList, "PROJECT".toList]

/-- Concrete classification used to witness claim C10. -/
def c10Witness : Classification :=
  { date := "2024-05-01".toList, project_name := "A".toList, type := "FOOTAGE".toList }

/-- A name PATTERN accepts only through Unicode case folding: the K of
its WORKING suffix is KELVIN SIGN U+212A, which folds to k under
IGNORECASE but is unchanged by str.upper(). -/
def kelvinName : String := "2024-05-01_X_WOR\u212AING"

/-- The classification the program returns for kelvinName: its type is
the raw uppercased suffix, which is not a canonical type. -/
def kelvinClassification : Classification :=
  { date := "2024-05-01".toList, project_name := "X".toList,
    type := "WOR\u212AING".toList }

/-! Aggregation: notion_sync.sync_aggregated_projects and helpers.
An Entry models one element of a project group as assembled in step 4
of sync_aggregated_projects (page_id, type, size_gb, hdd_id, hdd_name,
is_child); date and project_name are fixed within a group and omitted. -/

structure Entry where
  pageId : String
  type : Option String
  size_gb : ℚ
  hdd_id : Option String
  hdd_name : String
  is_child : Bool
deriving DecidableEq

/-- The type key an entry contributes under the guard `if e["type"]`. -/
def truthyType (e : Entry) : Option String := optTruthy e.type

/-- The member list by_type[t] of the defaultdict grouping. -/
def entriesOfType (entries : List Entry) (t : String) : List Entry :=
  entries.filter (fun e => decide (truthyType e = some t))

/-- The keys of the defaultdict grouping (ordering is irrelevant to the
properties proved here; only membership and count are used). -/
def typeKeys (entries : List Entry) : List String :=
  (entries.filterMap truthyType).dedup

/-- The hdd_id values contributing to unique_hdds for a type, before
dedup (guard `if e["hdd_id"]`). -/
def rawHddIds (entries : List Entry) (t : String) : List String :=
  (entriesOfType entries t).filterMap (fun e => optTruthy e.hdd_id)

/-- set(e["hdd_id"] for e in type_entries if e["hdd_id"]), as a list of
distinct ids. -/
def hddIdsOfType (entries : List Entry) (t : String) : List String :=
  (rawHddIds entries t).dedup

/-- notion_sync._has_size_mismatch: true when some type has at least
two member sizes of which more than one distinct value. -/
def has_size_mismatch (entries : List Entry) : Bool :=
  (typeKeys entries).any (fun t =>
    let sizes := (entriesOfType entries t).map (fun e => e.size_gb)
    decide (2 ≤ sizes.length) && decide (1 < sizes.dedup.length))

/-- notion_sync._compute_backup_status: first loop returns
"Nicht gesichert" when any type is on fewer than two distinct HDDs;
second loop returns "Teilweise" when any type has differing sizes;
otherwise "Vollständig". -/
def compute_backup_status (entries : List Entry) : String :=
  if (typeKeys entries).any (fun t => decide ((hddIdsOfType entries t).length < 2)) then
    "Nicht gesichert"
  else if (typeKeys entries).any (fun t =>
      decide (1 < ((entriesOfType entries t).map (fun e => e.size_gb)).dedup.length)) then
    "Teilweise"
  else "Vollständig"

/-- The max-minus-min difference reported by the SIZE_MISMATCH detector
in sync_log: round(max(sizes) - min(sizes), 2). -/
def size_mismatch_diff (type_entries : List Entry) : ℚ :=
  pyRound (pyMaxList (type_entries.map (fun e => e.size_gb))
    - pyMinList (type_entries.map (fun e => e.size_gb))) 2

/-! Spec-side set formulations used to state claims C3, C4, C7, C8. -/

/-- The set of canonical types present in a group. -/
def groupTypes (entries : List Entry) : Finset String :=
  (entries.filterMap truthyType).toFinset

/-- The set of distinct volumes (by id) holding a given type. -/
def typeVolumes (entries : List Entry) (t : String) : Finset String :=
  (rawHddIds entries t).toFinset

/-- The set of distinct size values of a type's member entries. -/
def typeSizes (entries : List Entry) (t : String) : Finset ℚ :=
  ((entriesOfType entries t).map (fun e => e.size_gb)).toFinset

/-- Entry literal used by the concrete group examples: one Valid
top-level entry of a given type and size on a given volume. -/
def entryMk (t : String) (size : ℚ) (hdd : String) : Entry :=
  { pageId := "", type := some t, size_gb := size, hdd_id := some hdd,
    hdd_name := hdd, is_child := false }

/-- FOOTAGE at 500 GB on two volumes, PHOTOS on only one volume. -/
def backupExample : List Entry :=
  [entryMk "FOOTAGE" 500 "A", entryMk "FOOTAGE" 500 "B", entryMk "PHOTOS" 120 "A"]

/-- FOOTAGE as 500 GB on volume A and 501 GB on volume B. -/
def mismatchExample : List Entry :=
  [entryMk "FOOTAGE" 500 "A", entryMk "FOOTAGE" 501 "B"]

/-! Log lifecycle: notion_sync._upsert_log_entry / _resolve_log_entry.
A LogRecord models the Notion log page's properties; the two functions
below are the store transition for the page addressed by one
deterministic log name (existing = the page, or none when absent). -/

structure LogRecord where
  name : String
  typ : String
  priority : String
  details : String
  hdds : String
  status : Option String
  lastScan : Option String
  project : Option String
  folderType : Option String
  diffGb : Option ℚ
  detectedAt : Option String
deriving DecidableEq

/-- notion_sync._upsert_log_entry (the should-fire path): Umgesetzt is
never overwritten; otherwise the page is patched (or created) with
status Open, details truncated to 2000 characters, the optional
properties only when given, and Erkannt am set only on creation or when
reopening a Resolved entry. -/
def upsert_log_entry (existing : Option LogRecord)
    (log_name log_type priority details hdd_names_str scan_date : String)
    (agg_page_id folder_type : Option String) (diff_gb : Option ℚ) :
    Option LogRecord :=
  match existing with
  | some r =>
    if r.status = some "Umgesetzt" then some r
    else
      let b0 : LogRecord :=
        { r with name := log_name, typ := log_type, priority := priority,
                 details := details.take 2000, hdds := hdd_names_str,
                 status := some "Open" }
      let b1 := if scan_date = "" then b0 else { b0 with lastScan := some scan_date }
      let b2 := match optTruthy agg_page_id with
                | some a => { b1 with project := some a }
                | none => b1
      let b3 := match optTruthy folder_type with
                | some ft => { b2 with folderType := some ft }
                | none => b2
      let b4 := match diff_gb with
                | some d => { b3 with diffGb := some d }
                | none => b3
      let b5 := if r.status = some "Resolved" ∧ ¬ scan_date = "" then
                  { b4 with detectedAt := some scan_date }
                else b4
      some b5
  | none =>
    some { name := log_name, typ := log_type, priority := priority,
           details := details.take 2000, hdds := hdd_names_str,
           status := some "Open",
           lastScan := if scan_date = "" then none else some scan_date,
           project := optTruthy agg_page_id,
           folderType := optTruthy folder_type,
           diffGb := diff_gb,
           detectedAt := if scan_date = "" then none else some scan_date }

/-- notion_sync._resolve_log_entry (the should-clear path): only an
existing Open entry is patched to Resolved (with Letzter Scan updated);
anything else is left untouched. -/
def resolve_log_entry (existing : Option LogRecord) (scan_date : String) :
    Option LogRecord :=
  match existing with
  | none => none
  | some r =>
    if ¬ r.status = some "Open" then some r
    else
      some (if scan_date = "" then { r with status := some "Resolved" }
            else { r with status := some "Resolved", lastScan := some scan_date })

/-! The per-volume and per-type detectors of sync_log used by claims
C7 and C8. -/

/-- Entries contributing to hdds_with_types: truthy type and truthy
hdd_name. -/
def typedWithHdd (entries : List Entry) : List Entry :=
  entries.filter (fun e => (truthyType e).isSome && !(e.hdd_name = ""))

/-- The keys of hdds_with_types: volumes holding at least one typed
entry of the group. -/
def hddNamesWithTyped (entries : List Entry) : List String :=
  ((typedWithHdd entries).map (fun e => e.hdd_name)).dedup

/-- hdds_with_types[h]: the set of types present on volume h. -/
def typesOnHdd (entries : List Entry) (h : String) : Finset String :=
  (((typedWithHdd entries).filter (fun e => decide (e.hdd_name = h))).filterMap
    truthyType).toFinset

/-- missing_types = all_types - hdd_types for volume h. -/
def incompleteMissing (entries : List Entry) (h : String) : Finset String :=
  groupTypes entries \ typesOnHdd entries h

/-- The INCOMPLETE_BACKUP detector fires for volume h when
missing_types is nonempty. -/
def incomplete_fires (entries : List Entry) (h : String) : Bool :=
  decide (incompleteMissing entries h).Nonempty

/-- The average size annotated next to a missing type in the
INCOMPLETE_BACKUP details: round(sum(sizes)/len(sizes), 1) over
by_type[t]. -/
def incompleteAvg (entries : List Entry) (t : String) : ℚ :=
  pyRound ((((entriesOfType entries t).map (fun e => e.size_gb)).sum)
    / ((((entriesOfType entries t).map (fun e => e.size_gb)).length : ℕ) : ℚ)) 1

/-- unique_hdds of the EXCESS_COPIES detector (sorting dropped: only
membership and count are used). -/
def excessUniqueHddNames (type_entries : List Entry) : List String :=
  ((type_entries.filter (fun e => !(e.hdd_name = ""))).map (fun e => e.hdd_name)).dedup

/-- The EXCESS_COPIES detector fires for type t when the type lives on
at least three distinct volumes. -/
def excess_fires (entries : List Entry) (t : String) : Bool :=
  decide (3 ≤ (excessUniqueHddNames (entriesOfType entries t)).length)

/-- The set of distinct volume names (nonempty ones) holding a type. -/
def typeVolumeNames (entries : List Entry) (t : String) : Finset String :=
  (((entriesOfType entries t).filter (fun e => !(e.hdd_name = ""))).map
    (fun e => e.hdd_name)).toFinset

/-- notion_sync.sync_aggregated_projects, step 5: the total size of a
group is the rounded sum over entries that are not children. -/
def total_size (entries : List Entry) : ℚ :=
  pyRound (((entries.filter (fun e => !e.is_child)).map (fun e => e.size_gb)).sum) 2

/-- An Open EXCESS_COPIES log record for the boundary conjunct of
claim C8. -/
def openExcessRecord : LogRecord :=
  { name := "EXCESS: 2024-05-01_A FOOTAGE", typ := "EXCESS_COPIES",
    priority := "Info", details := "3 Kopien", hdds := "A, B",
    status := some "Open", lastScan := some "2024-05-01", project := none,
    folderType := some "FOOTAGE", diffGb := none,
    detectedAt := some "2024-05-01" }

/-- FOOTAGE on exactly two distinct volumes. -/
def excessTwoExample : List Entry :=
  [entryMk "FOOTAGE" 500 "A", entryMk "FOOTAGE" 500 "B"]

/-- FOOTAGE on exactly three distinct volumes. -/
def excessThreeExample : List Entry :=
  [entryMk "FOOTAGE" 500 "A", entryMk "FOOTAGE" 500 "B", entryMk "FOOTAGE" 500 "C"]

/-- Group with FOOTAGE on volumes A and B and PHOTOS only on B: volume
A is incomplete. -/
def incompleteExample : List Entry :=
  [entryMk "FOOTAGE" 500 "A", entryMk "FOOTAGE" 500 "B", entryMk "PHOTOS" 100 "B"]

/-- One non-child entry of 500.25 GB and one child entry: only the
non-child contributes to total_size. -/
def totalExample : List Entry :=
  [entryMk "PROJECT" (50025 / 100) "A",
   { entryMk "FOOTAGE" 300 "A" with is_child := true }]

/-- A log record manually marked Umgesetzt. -/
def umgesetztRecord : LogRecord :=
  { name := "MISSING_BACKUP: 2024-05-01_A FOOTAGE", typ := "MISSING_BACKUP",
    priority := "Kritisch", details := "Nur auf A (500 GB)", hdds := "A",
    status := some "Umgesetzt", lastScan := some "2024-05-01", project := none,
    folderType := some "FOOTAGE", diffGb := none, detectedAt := some "2024-04-01" }

/-! Entry reconciler: notion_sync.sync_projects.
A Page models a Speicherungen row through the properties the
reconciliation logic reads back: its title (name), HDD relation and
archived flag; the remaining patched properties (sizes, dates, status,
parent relation) are payload that claim C5 does not mention. Page ids
model Notion page ids, handed out by a counter. -/

structure Page where
  id : ℕ
  name : String
  hdd : Option ℕ
  archived : Bool
deriving DecidableEq

/-- The store of one database: its pages and the id counter. -/
structure Store where
  pages : List Page
  nextId : ℕ
deriving DecidableEq

/-- One top-level candidate of the scan report with its child names
(children of PROJECT folders, one level deep). -/
structure ScanItem where
  name : String
  children : List String
deriving DecidableEq

/-- The scan report consumed by sync_projects: valid projects and
unassigned folders. -/
structure Report where
  projects : List ScanItem
  unassigned : List String
deriving DecidableEq

/-- The candidate names in processing order — each project followed by
its children, then the unassigned folders; as a set this is
synced_names. -/
def scannedNames (r : Report) : List String :=
  (r.projects.map (fun p => p.name :: p.children)).flatten ++ r.unassigned

/-- Python dict insertion: overwrite the value in place, or append a
new pair. -/
def dictInsert (acc : List (String × ℕ)) (k : String) (v : ℕ) : List (String × ℕ) :=
  if acc.any (fun kv => decide (kv.1 = k)) then
    acc.map (fun kv => if kv.1 = k then (k, v) else kv)
  else acc ++ [(k, v)]

/-- The existing dict of sync_projects: page title to page id over the
query result, later pages overwriting earlier ones. -/
def existingDict (pages : List Page) : List (String × ℕ) :=
  pages.foldl (fun acc p => dictInsert acc p.name p.id) []

/-- Python dict lookup. -/
def dictGet (acc : List (String × ℕ)) (k : String) : Option ℕ :=
  (acc.find? (fun kv => decide (kv.1 = k))).map (fun kv => kv.2)

/-- query_database filtered on the HDD relation: the unarchived pages
of one volume (archived pages are excluded from Notion queries). -/
def queryVolume (st : Store) (hddId : ℕ) : List Page :=
  st.pages.filter (fun p => !p.archived && decide (p.hdd = some hddId))

/-- _upsert_page for one candidate name: patch the page recorded in
existing (the patched properties keep the same name and HDD relation),
or create a new page of this volume. -/
def upsertStep (existing : List (String × ℕ)) (hddId : ℕ) (st : Store) (n : String) :
    Store :=
  match dictGet existing n with
  | some pid =>
    { st with pages := st.pages.map (fun p =>
        if p.id = pid then { p with name := n, hdd := some hddId } else p) }
  | none =>
    { pages := st.pages ++
        [{ id := st.nextId, name := n, hdd := some hddId, archived := false }],
      nextId := st.nextId + 1 }

/-- The upsert phase of sync_projects over all candidate names. -/
def upsertAll (st : Store) (existing : List (String × ℕ)) (hddId : ℕ)
    (names : List String) : Store :=
  names.foldl (upsertStep existing hddId) st

/-- One archive patch: "archived": true on one page id. -/
def archiveOne (pages : List Page) (pid : ℕ) : List Page :=
  pages.map (fun p => if p.id = pid then { p with archived := true } else p)

/-- The page ids the archive loop touches: dict entries whose name was
not seen in this pass. -/
def orphanIds (existing : List (String × ℕ)) (synced : List String) : List ℕ :=
  existing.filterMap (fun kv => if kv.1 ∈ synced then none else some kv.2)

/-- notion_sync.sync_projects as a store transformer: load this
volume's pages, upsert every candidate by name, then archive every
stored name not seen in this pass. -/
def sync_projects (st : Store) (hddId : ℕ) (r : Report) : Store :=
  let existing := existingDict (queryVolume st hddId)
  let st1 := upsertAll st existing hddId (scannedNames r)
  { st1 with pages := (orphanIds existing (scannedNames r)).foldl archiveOne st1.pages }

/-- The archive operations a run of sync_projects would issue against
the given store. -/
def archivedThisPass (st : Store) (hddId : ℕ) (r : Report) : List ℕ :=
  orphanIds (existingDict (queryVolume st hddId)) (scannedNames r)

/-- Store well-formedness: page ids are distinct and below the id
counter. -/
def StoreWF (st : Store) : Prop :=
  (st.pages.map (fun p => p.id)).Nodup ∧ ∀ p ∈ st.pages, p.id < st.nextId

/-- A stored page of volume 7 that the next scan no longer contains. -/
def oldPage : Page :=
  { id := 0, name := "2023-01-01_Old_FOOTAGE", hdd := some 7, archived := false }

/-- A store holding just that page. -/
def storeExample : Store := { pages := [oldPage], nextId := 1 }

/-- A scan report with one project, one child and one unassigned
folder, none of which is the stored name. -/
def reportExample : Report :=
  { projects := [{ name := "2024-05-01_A", children := ["2024-05-01_A_FOOTAGE"] }]
    unassigned := ["misc"] }

/-! Theorems. -/

/-- Claim C6: the classifier maps 2024-05-01_ProjectX_FOOTAGE to
(2024-05-01, ProjectX, FOOTAGE); maps 2024-05-01_ProjectX to type
PROJECT; leaves 2024-05-01_Proj_Post unclassified because the fallback
candidate's project portion still contains an underscore; and leaves
2024-13-40_X_FOOTAGE unclassified because its date component is not a
valid calendar date. -/
theorem claim_C6 :
    validate_folder "2024-05-01_ProjectX_FOOTAGE".toList =
      some { date := "2024-05-01".toList, project_name := "ProjectX".toList,
             type := "FOOTAGE".toList } ∧
    validate_folder "2024-05-01_ProjectX".toList =
      some { date := "2024-05-01".toList, project_name := "ProjectX".toList,
             type := "PROJECT".toList } ∧
    validate_folder "2024-05-01_Proj_Post".toList = none ∧
    validate_folder "2024-13-40_X_FOOTAGE".toList = none := by
  refine ⟨?_, ?_, ?_, ?_⟩ <;> decide

/-- Characters matched by an alternative come from the input. -/
theorem matchAlt_subset : ∀ (alt cs raw rem : List Char),
    matchAlt alt cs = some (raw, rem) → ∀ x ∈ raw, x ∈ cs := by
  intro alt
  induction alt with
  | nil =>
    intro cs raw rem h x hx
    simp only [matchAlt, Option.some.injEq, Prod.mk.injEq] at h
    rw [← h.1] at hx
    simp at hx
  | cons a as ih =>
    intro cs raw rem h x hx
    cases cs with
    | nil => simp [matchAlt] at h
    | cons c cs' =>
      simp only [matchAlt] at h
      split at h
      · split at h
        · rename_i raw' rest' hm
          cases h
          rcases List.mem_cons.mp hx with rfl | hx'
          · exact List.mem_cons_self _ _
          · exact List.mem_cons_of_mem _ (ih cs' raw' rem hm x hx')
        · exact absurd h (by simp)
      · exact absurd h (by simp)

set_option maxRecDepth 8192 in
/-- On the 128 ASCII code points, the IGNORECASE fold against any
character of the alternation coincides with str.upper() inversion:
checked by evaluation. -/
theorem fold_upper_ascii : ∀ a ∈ aliasChars, ∀ n ∈ List.range 128,
    sreIgnoreMatch a (Char.ofNat n) = true → pyUpper (Char.ofNat n) = a := by
  decide

/-- Every character of every alternative is an alternation character. -/
theorem aliasKeys_chars : ∀ alt ∈ aliasKeys, ∀ a ∈ alt, a ∈ aliasChars := by
  decide

/-- On ASCII input, a successful alternative match uppercases to the
alternative itself. -/
theorem matchAlt_map_pyUpper : ∀ (alt cs raw rem : List Char),
    (∀ a ∈ alt, a ∈ aliasChars) → (∀ x ∈ raw, x.toNat < 128) →
    matchAlt alt cs = some (raw, rem) → raw.map pyUpper = alt := by
  intro alt
  induction alt with
  | nil =>
    intro cs raw rem _ _ h
    simp only [matchAlt, Option.some.injEq, Prod.mk.injEq] at h
    simp [← h.1]
  | cons a as ih =>
    intro cs raw rem halt hascii h
    cases cs with
    | nil => simp [matchAlt] at h
    | cons c cs' =>
      simp only [matchAlt] at h
      split at h
      · rename_i hcu
        split at h
        · rename_i raw' rest' hm
          cases h
          have hch : pyUpper c = a := by
            have hc128 : c.toNat < 128 := hascii c (List.mem_cons_self _ _)
            have hfold := fold_upper_ascii a (halt a (List.mem_cons_self _ _))
              c.toNat (List.mem_range.mpr hc128)
            rw [Char.ofNat_toNat] at hfold
            exact hfold hcu
          have htail : raw'.map pyUpper = as :=
            ih cs' raw' rem (fun b hb => halt b (List.mem_cons_of_mem _ hb))
              (fun x hx => hascii x (List.mem_cons_of_mem _ hx)) hm
          simp only [List.map_cons, hch, htail]
        · exact absurd h (by simp)
      · exact absurd h (by simp)

/-- A successful alternation pick comes from one of the alternatives. -/
theorem tryAlts_mem : ∀ (alts : List (List Char)) (cs raw : List Char),
    tryAlts alts cs = some raw →
    ∃ alt ∈ alts, ∃ rem, matchAlt alt cs = some (raw, rem) := by
  intro alts
  induction alts with
  | nil => intro cs raw h; simp [tryAlts] at h
  | cons alt rest ih =>
    intro cs raw h
    simp only [tryAlts] at h
    split at h
    · rename_i raw' rem' hm
      split at h
      · cases h
        exact ⟨alt, by simp, rem', hm⟩
      · obtain ⟨a, ha, rem, hr⟩ := ih cs raw h
        exact ⟨a, by simp [ha], rem, hr⟩
    · obtain ⟨a, ha, rem, hr⟩ := ih cs raw h
      exact ⟨a, by simp [ha], rem, hr⟩

/-- The raw group 3 produced by the lazy split search comes from a
successful alternation pick over characters of the input. -/
theorem findSplit_tryAlts : ∀ (cs g2rev g2 raw : List Char),
    findSplit g2rev cs = some (g2, raw) →
    ∃ ds, (∀ x ∈ ds, x ∈ cs) ∧ tryAlts aliasKeys ds = some raw := by
  intro cs
  induction cs with
  | nil => intro g2rev g2 raw h; simp [findSplit] at h
  | cons c rest ih =>
    intro g2rev g2 raw h
    simp only [findSplit] at h
    split at h
    · split at h
      · rename_i raw' ht
        cases h
        refine ⟨rest.dropWhile isPySpace, ?_, ht⟩
        intro x hx
        exact List.mem_cons_of_mem _ (List.dropWhile_subset _ hx)
      · obtain ⟨ds, hds, ht⟩ := ih _ _ _ h
        exact ⟨ds, fun x hx => List.mem_cons_of_mem _ (hds x hx), ht⟩
    · split at h
      · simp at h
      · obtain ⟨ds, hds, ht⟩ := ih _ _ _ h
        exact ⟨ds, fun x hx => List.mem_cons_of_mem _ (hds x hx), ht⟩

/-- Every alternative of the pattern resolves through TYPE_ALIASES to a
canonical type. -/
theorem aliasGet_mem_canonical : ∀ alt ∈ aliasKeys, aliasGet alt ∈ canonicalTypes := by
  decide

/-- A successful PATTERN match picks its raw group 3 by matching one
alternative against characters of the input. -/
theorem matchPATTERN_alt (cs date g2 raw : List Char)
    (h : matchPATTERN cs = some (date, g2, raw)) :
    ∃ alt ∈ aliasKeys, ∃ ds rem, matchAlt alt ds = some (raw, rem) ∧
      ∀ x ∈ ds, x ∈ cs := by
  unfold matchPATTERN at h
  split at h
  · split at h
    · rename_i r heq
      split at h
      · rename_i g2' raw' hf
        cases h
        obtain ⟨ds, hds, ht⟩ := findSplit_tryAlts r [] g2 raw hf
        obtain ⟨alt, halt, rem, hm⟩ := tryAlts_mem aliasKeys ds raw ht
        refine ⟨alt, halt, ds, rem, hm, ?_⟩
        intro x hx
        have hxd : x ∈ cs.drop 10 := by
          rw [heq]
          exact List.mem_cons_of_mem _ (hds x hx)
        exact List.mem_of_mem_drop hxd
      · simp at h
    · simp at h
  · simp at h

/-- Claim C10 (amended): every classification the classifier returns
carries a date component that parses as a valid calendar date, and
whenever the input name is ASCII — where the IGNORECASE fold coincides
with ASCII case inversion, so alias resolution is total over the
accepted suffixes — its type is one of the six canonical types. -/
theorem claim_C10 (cs : List Char) (c : Classification)
    (h : validate_folder cs = some c) :
    strptimeValid c.date = true ∧
    ((∀ x ∈ cs, x.toNat < 128) → c.type ∈ canonicalTypes) := by
  unfold validate_folder at h
  split at h
  · rename_i date g2 raw hp
    split at h
    · rename_i hd
      cases h
      refine ⟨hd, ?_⟩
      intro hascii
      obtain ⟨alt, halt, ds, rem, hm, hds⟩ := matchPATTERN_alt cs date g2 raw hp
      have hraw : ∀ x ∈ raw, x.toNat < 128 := fun x hx =>
        hascii x (hds x (matchAlt_subset alt ds raw rem hm x hx))
      have hup : raw.map pyUpper = alt :=
        matchAlt_map_pyUpper alt ds raw rem (aliasKeys_chars alt halt) hraw hm
      show aliasGet (raw.map pyUpper) ∈ canonicalTypes
      rw [hup]
      exact aliasGet_mem_canonical alt halt
    · exact absurd h (by simp)
  · split at h
    · rename_i date g2 hq
      split at h
      · rename_i hd
        split at h
        · exact absurd h (by simp)
        · cases h
          refine ⟨hd, fun _ => ?_⟩
          show "PROJECT".toList ∈ canonicalTypes
          decide
      · exact absurd h (by simp)
    · exact absurd h (by simp)

/-- Claim C10, as stated, is false of the program: PATTERN accepts
kelvinName through Unicode case folding (KELVIN SIGN folds to k),
str.upper() leaves KELVIN SIGN in place, the TYPE_ALIASES lookup falls
back to the raw suffix, and the classifier returns a type outside the
six canonical types even though the date is valid. -/
theorem claim_C10_counterexample :
    validate_folder kelvinName.toList = some kelvinClassification ∧
    kelvinClassification.type ∉ canonicalTypes ∧
    strptimeValid kelvinClassification.date = true := by
  refine ⟨?_, ?_, ?_⟩ <;> decide

/-- Witness for the amended claim C10 at the ASCII, mixed-case, aliased
name 2024-05-01_A_video. -/
theorem claim_C10_witness :
    strptimeValid c10Witness.date = true ∧
    ((∀ x ∈ "2024-05-01_A_video".toList, x.toNat < 128) →
      c10Witness.type ∈ canonicalTypes) :=
  claim_C10 "2024-05-01_A_video".toList c10Witness (by decide)

/-- Rounding an exact integer changes nothing. -/
theorem roundHalfEven_intCast (k : ℤ) : roundHalfEven (k : ℚ) = k := by
  unfold roundHalfEven
  rw [Int.floor_intCast]
  norm_num

/-- Evaluation rule for pyRound when the scaled value is an integer. -/
theorem pyRound_int (q : ℚ) (n : ℕ) (k : ℤ) (hk : q * (10 : ℚ) ^ n = (k : ℚ)) :
    pyRound q n = (k : ℚ) / (10 : ℚ) ^ n := by
  unfold pyRound
  rw [hk, roundHalfEven_intCast]

/-- A value that is a whole multiple of 1/100 is unchanged by
round(x, 2). -/
theorem pyRound_two_eq_self (q : ℚ) (k : ℤ) (hk : q * 100 = (k : ℚ)) :
    pyRound q 2 = q := by
  have h : q * (10 : ℚ) ^ 2 = (k : ℚ) := by
    rw [show ((10 : ℚ) ^ 2) = 100 by norm_num]
    exact hk
  rw [pyRound_int q 2 k h]
  have h100 : ((10 : ℚ) ^ 2) = 100 := by norm_num
  rw [h100, ← hk]
  field_simp

theorem typeKeys_mem (entries : List Entry) (t : String) :
    t ∈ typeKeys entries ↔ t ∈ groupTypes entries := by
  simp [typeKeys, groupTypes]

theorem hddIds_card (entries : List Entry) (t : String) :
    (hddIdsOfType entries t).length = (typeVolumes entries t).card := by
  simp [hddIdsOfType, typeVolumes, List.card_toFinset]

theorem sizes_card (entries : List Entry) (t : String) :
    (((entriesOfType entries t).map (fun e => e.size_gb)).dedup).length
      = (typeSizes entries t).card := by
  simp [typeSizes, List.card_toFinset]

/-- Claim C3: backup_status is computed with fixed precedence — any
type on fewer than 2 distinct volumes gives NotBackedUp first, then any
type with more than one distinct size gives Partial, else Complete; and
a group with one type identical on two volumes and another type on a
single volume yields NotBackedUp. -/
theorem claim_C3 :
    (∀ entries : List Entry,
      compute_backup_status entries =
        (if ∃ t ∈ groupTypes entries, (typeVolumes entries t).card < 2 then
          "Nicht gesichert"
        else if ∃ t ∈ groupTypes entries, 1 < (typeSizes entries t).card then
          "Teilweise"
        else "Vollständig")) ∧
    compute_backup_status backupExample = "Nicht gesichert" := by
  refine ⟨?_, by decide⟩
  intro entries
  have e1 : ((typeKeys entries).any
        (fun t => decide ((hddIdsOfType entries t).length < 2)) = true)
      ↔ ∃ t ∈ groupTypes entries, (typeVolumes entries t).card < 2 := by
    simp only [List.any_eq_true, decide_eq_true_eq, typeKeys_mem, hddIds_card]
  have e2 : ((typeKeys entries).any (fun t =>
        decide (1 < ((entriesOfType entries t).map (fun e => e.size_gb)).dedup.length)) = true)
      ↔ ∃ t ∈ groupTypes entries, 1 < (typeSizes entries t).card := by
    simp only [List.any_eq_true, decide_eq_true_eq, typeKeys_mem, sizes_card]
  unfold compute_backup_status
  by_cases h1 : ∃ t ∈ groupTypes entries, (typeVolumes entries t).card < 2
  · rw [if_pos (e1.mpr h1), if_pos h1]
  · rw [if_neg (fun hh => h1 (e1.mp hh)), if_neg h1]
    by_cases h2 : ∃ t ∈ groupTypes entries, 1 < (typeSizes entries t).card
    · rw [if_pos (e2.mpr h2), if_pos h2]
    · rw [if_neg (fun hh => h2 (e2.mp hh)), if_neg h2]

/-- Claim C4: the mismatch flag is true exactly when some canonical
type's member entries, regardless of volume, include more than one
distinct size value; and for FOOTAGE at 500 GB on volume A versus
501 GB on volume B the flag is set and the reported difference is
1.0 (in the stored GB unit). -/
theorem claim_C4 :
    (∀ entries : List Entry,
      has_size_mismatch entries = true
        ↔ ∃ t ∈ groupTypes entries, 1 < (typeSizes entries t).card) ∧
    has_size_mismatch mismatchExample = true ∧
    size_mismatch_diff (entriesOfType mismatchExample "FOOTAGE") = 1 := by
  refine ⟨?_, by decide, ?_⟩
  case refine_2 =>
    have hs : (entriesOfType mismatchExample "FOOTAGE").map (fun e => e.size_gb)
        = [500, 501] := by decide
    unfold size_mismatch_diff
    rw [hs]
    have hmax : pyMaxList [(500 : ℚ), 501] = 501 := by
      simp [pyMaxList]
      norm_num [max_def]
    have hmin : pyMinList [(500 : ℚ), 501] = 500 := by
      simp [pyMinList]
      norm_num [min_def]
    rw [hmax, hmin]
    rw [show (501 : ℚ) - 500 = 1 by norm_num]
    rw [pyRound_int 1 2 100 (by norm_num)]
    norm_num
  intro entries
  unfold has_size_mismatch
  simp only [List.any_eq_true, Bool.and_eq_true, decide_eq_true_eq, typeKeys_mem, sizes_card]
  constructor
  · rintro ⟨t, ht, -, h2⟩
    exact ⟨t, ht, h2⟩
  · rintro ⟨t, ht, h2⟩
    have hle : (typeSizes entries t).card
        ≤ ((entriesOfType entries t).map (fun e => e.size_gb)).length := by
      rw [← sizes_card]
      exact List.Sublist.length_le (List.dedup_sublist _)
    exact ⟨t, ht, by omega, h2⟩

theorem typesOnHdd_subset (entries : List Entry) (h : String) :
    typesOnHdd entries h ⊆ groupTypes entries := by
  intro t ht
  simp only [typesOnHdd, List.mem_toFinset, List.mem_filterMap] at ht
  obtain ⟨e, he, het⟩ := ht
  have he1 : e ∈ typedWithHdd entries := List.mem_of_mem_filter he
  have he2 : e ∈ entries := by
    simp only [typedWithHdd] at he1
    exact List.mem_of_mem_filter he1
  simp only [groupTypes, List.mem_toFinset, List.mem_filterMap]
  exact ⟨e, he2, het⟩

/-- Claim C7: for every volume present in a group, the IncompleteBackup
detector fires exactly when the volume's type-set is a strict subset of
the group's type-set, and each missing type is annotated with the
rounded arithmetic average of the sizes observed for that type among
the group's entries, all of which lie on other volumes. -/
theorem claim_C7 (entries : List Entry) (h : String)
    (hmem : h ∈ hddNamesWithTyped entries) :
    (incomplete_fires entries h = true
        ↔ typesOnHdd entries h ⊂ groupTypes entries) ∧
    ∀ t ∈ incompleteMissing entries h,
      (∀ e ∈ entriesOfType entries t, ¬ e.hdd_name = h) ∧
      incompleteAvg entries t =
        pyRound
          (((((entriesOfType entries t).filter
              (fun e => !(decide (e.hdd_name = h)))).map (fun e => e.size_gb)).sum)
            / ((((((entriesOfType entries t).filter
              (fun e => !(decide (e.hdd_name = h)))).map
                (fun e => e.size_gb)).length : ℕ)) : ℚ)) 1 := by
  have hne : ¬ h = "" := by
    simp only [hddNamesWithTyped, List.mem_dedup, List.mem_map] at hmem
    obtain ⟨e, he, rfl⟩ := hmem
    simp only [typedWithHdd] at he
    have hp := List.of_mem_filter he
    simp only [Bool.and_eq_true, Bool.not_eq_true', decide_eq_false_iff_not] at hp
    exact hp.2
  have hother : ∀ t ∈ incompleteMissing entries h,
      ∀ e ∈ entriesOfType entries t, ¬ e.hdd_name = h := by
    intro t ht e he heq
    simp only [incompleteMissing, Finset.mem_sdiff] at ht
    apply ht.2
    have hmem_e : e ∈ entries := List.mem_of_mem_filter he
    have hty : truthyType e = some t := by
      have := List.of_mem_filter he
      simpa using this
    simp only [typesOnHdd, List.mem_toFinset, List.mem_filterMap]
    refine ⟨e, ?_, hty⟩
    rw [List.mem_filter]
    refine ⟨?_, by simp [heq]⟩
    simp only [typedWithHdd, List.mem_filter]
    refine ⟨hmem_e, ?_⟩
    simp only [Bool.and_eq_true, Bool.not_eq_true', decide_eq_false_iff_not]
    constructor
    · simp [hty]
    · rw [heq]; exact hne
  refine ⟨?_, ?_⟩
  · simp only [incomplete_fires, decide_eq_true_eq, incompleteMissing,
      Finset.sdiff_nonempty]
    rw [ssubset_iff_subset_not_subset]
    have hsub := typesOnHdd_subset entries h
    constructor
    · intro hns; exact ⟨hsub, hns⟩
    · rintro ⟨-, hns⟩; exact hns
  · intro t ht
    refine ⟨hother t ht, ?_⟩
    have hfe : (entriesOfType entries t).filter (fun e => !(decide (e.hdd_name = h)))
        = entriesOfType entries t := by
      rw [List.filter_eq_self]
      intro e he
      simp [hother t ht e he]
    rw [incompleteAvg, hfe]

/-- Claim C8: ExcessCopies fires for a type exactly when at least three
distinct volumes hold it; two distinct volumes never fire (and the
corresponding Open log entry is cleared to Resolved), three do. -/
theorem claim_C8 (entries : List Entry) (t : String) :
    (excess_fires entries t = true ↔ 3 ≤ (typeVolumeNames entries t).card) ∧
    excess_fires excessTwoExample "FOOTAGE" = false ∧
    excess_fires excessThreeExample "FOOTAGE" = true ∧
    resolve_log_entry (some openExcessRecord) "2024-06-02"
      = some { openExcessRecord with
               status := some "Resolved"
               lastScan := some "2024-06-02" } := by
  refine ⟨?_, by decide, by decide, by decide⟩
  simp only [excess_fires, decide_eq_true_eq, excessUniqueHddNames, typeVolumeNames,
    List.card_toFinset]

/-- Sums of whole multiples of 1/100 are whole multiples of 1/100. -/
theorem sum_hundredths : ∀ (l : List ℚ),
    (∀ x ∈ l, ∃ k : ℤ, x = (k : ℚ) / 100) →
    ∃ K : ℤ, l.sum * 100 = (K : ℚ) := by
  intro l
  induction l with
  | nil => intro _; exact ⟨0, by norm_num⟩
  | cons x xs ih =>
    intro hx
    obtain ⟨k, hk⟩ := hx x (by simp)
    obtain ⟨K, hK⟩ := ih (fun y hy => hx y (by simp [hy]))
    refine ⟨k + K, ?_⟩
    rw [List.sum_cons, add_mul, hK, hk]
    push_cast
    field_simp

/-- Claim C9: when every member size is a whole number of hundredths
(as bytes_to_gb guarantees for stored sizes), the group's total_size
equals the exact sum of the sizes of the entries that are not children,
so child sizes are never double-counted alongside their parents. -/
theorem claim_C9 (entries : List Entry)
    (h : ∀ e ∈ entries, ∃ k : ℤ, e.size_gb = (k : ℚ) / 100) :
    total_size entries
      = ((entries.filter (fun e => !e.is_child)).map (fun e => e.size_gb)).sum := by
  unfold total_size
  have hall : ∀ x ∈ (entries.filter (fun e => !e.is_child)).map (fun e => e.size_gb),
      ∃ k : ℤ, x = (k : ℚ) / 100 := by
    intro x hx
    obtain ⟨e, he, rfl⟩ := List.mem_map.mp hx
    exact h e (List.mem_of_mem_filter he)
  obtain ⟨K, hK⟩ := sum_hundredths _ hall
  exact pyRound_two_eq_self _ K hK

/-- Claim C1: the log-entry lifecycle per evaluated name — absent and
firing creates an Open entry stamped with the scan date; an Open entry
that fires is re-patched (details updated) with status Open and
detected-date untouched; an Open entry that clears becomes Resolved; a
Resolved entry that fires reopens with the detected-date refreshed to
the current scan date; a Resolved entry that clears is untouched. -/
theorem claim_C1 (log_name log_type priority details hdds scan_date : String)
    (agg ft : Option String) (dg : Option ℚ) (hsd : ¬ scan_date = "") :
    (∃ c, upsert_log_entry none log_name log_type priority details hdds scan_date agg ft dg
        = some c ∧ c.status = some "Open" ∧ c.detectedAt = some scan_date) ∧
    (∀ r : LogRecord, r.status = some "Open" →
      ∃ c, upsert_log_entry (some r) log_name log_type priority details hdds scan_date agg ft dg
        = some c ∧ c.status = some "Open" ∧ c.detectedAt = r.detectedAt ∧
        c.details = details.take 2000) ∧
    (∀ r : LogRecord, r.status = some "Open" →
      ∃ c, resolve_log_entry (some r) scan_date = some c ∧ c.status = some "Resolved") ∧
    (∀ r : LogRecord, r.status = some "Resolved" →
      ∃ c, upsert_log_entry (some r) log_name log_type priority details hdds scan_date agg ft dg
        = some c ∧ c.status = some "Open" ∧ c.detectedAt = some scan_date) ∧
    (∀ r : LogRecord, r.status = some "Resolved" →
      resolve_log_entry (some r) scan_date = some r) := by
  refine ⟨?_, ?_, ?_, ?_, ?_⟩
  · refine ⟨_, rfl, rfl, ?_⟩
    simp [hsd]
  · intro r hr
    rcases hagg : optTruthy agg with _ | a <;>
      rcases hft : optTruthy ft with _ | f <;>
        rcases hdg : dg with _ | d <;>
          simp [upsert_log_entry, hr, hsd, hagg, hft, hdg]
  · intro r hr
    simp [resolve_log_entry, hr, hsd]
  · intro r hr
    rcases hagg : optTruthy agg with _ | a <;>
      rcases hft : optTruthy ft with _ | f <;>
        rcases hdg : dg with _ | d <;>
          simp [upsert_log_entry, hr, hsd, hagg, hft, hdg]
  · intro r hr
    simp [resolve_log_entry, hr]

/-- Claim C2: an Implemented (Umgesetzt) log entry is terminal — both
the should-fire path and the should-clear path leave the record
completely unchanged. -/
theorem claim_C2 (log_name log_type priority details hdds scan_date : String)
    (agg ft : Option String) (dg : Option ℚ) (r : LogRecord)
    (him : r.status = some "Umgesetzt") :
    upsert_log_entry (some r) log_name log_type priority details hdds scan_date agg ft dg
      = some r ∧
    resolve_log_entry (some r) scan_date = some r := by
  constructor
  · simp [upsert_log_entry, him]
  · simp [resolve_log_entry, him]

/-- Witness for claim C7 at a concrete incomplete volume. -/
theorem claim_C7_witness :
    (incomplete_fires incompleteExample "A" = true
        ↔ typesOnHdd incompleteExample "A" ⊂ groupTypes incompleteExample) ∧
    ∀ t ∈ incompleteMissing incompleteExample "A",
      (∀ e ∈ entriesOfType incompleteExample t, ¬ e.hdd_name = "A") ∧
      incompleteAvg incompleteExample t =
        pyRound
          (((((entriesOfType incompleteExample t).filter
              (fun e => !(decide (e.hdd_name = "A")))).map (fun e => e.size_gb)).sum)
            / ((((((entriesOfType incompleteExample t).filter
              (fun e => !(decide (e.hdd_name = "A")))).map
                (fun e => e.size_gb)).length : ℕ)) : ℚ)) 1 :=
  claim_C7 incompleteExample "A" (by decide)

/-- Witness for claim C9 at a concrete group. -/
theorem claim_C9_witness :
    total_size totalExample
      = ((totalExample.filter (fun e => !e.is_child)).map (fun e => e.size_gb)).sum :=
  claim_C9 totalExample (by
    intro e he
    simp only [totalExample, List.mem_cons, List.not_mem_nil, or_false] at he
    rcases he with rfl | rfl
    · exact ⟨50025, by norm_num [entryMk]⟩
    · exact ⟨30000, by norm_num [entryMk]⟩)

/-- Witness for claim C1 at concrete detector arguments and scan date. -/
theorem claim_C1_witness :
    (∃ c, upsert_log_entry none "MISSING_BACKUP: 2024-05-01_A FOOTAGE" "MISSING_BACKUP"
        "Kritisch" "Nur auf A (500 GB)" "A" "2024-06-01" none none none
        = some c ∧ c.status = some "Open" ∧ c.detectedAt = some "2024-06-01") ∧
    (∀ r : LogRecord, r.status = some "Open" →
      ∃ c, upsert_log_entry (some r) "MISSING_BACKUP: 2024-05-01_A FOOTAGE" "MISSING_BACKUP"
        "Kritisch" "Nur auf A (500 GB)" "A" "2024-06-01" none none none
        = some c ∧ c.status = some "Open" ∧ c.detectedAt = r.detectedAt ∧
        c.details = "Nur auf A (500 GB)".take 2000) ∧
    (∀ r : LogRecord, r.status = some "Open" →
      ∃ c, resolve_log_entry (some r) "2024-06-01" = some c ∧ c.status = some "Resolved") ∧
    (∀ r : LogRecord, r.status = some "Resolved" →
      ∃ c, upsert_log_entry (some r) "MISSING_BACKUP: 2024-05-01_A FOOTAGE" "MISSING_BACKUP"
        "Kritisch" "Nur auf A (500 GB)" "A" "2024-06-01" none none none
        = some c ∧ c.status = some "Open" ∧ c.detectedAt = some "2024-06-01") ∧
    (∀ r : LogRecord, r.status = some "Resolved" →
      resolve_log_entry (some r) "2024-06-01" = some r) :=
  claim_C1 "MISSING_BACKUP: 2024-05-01_A FOOTAGE" "MISSING_BACKUP" "Kritisch"
    "Nur auf A (500 GB)" "A" "2024-06-01" none none none (by decide)

/-- Witness for claim C2 at a concrete Umgesetzt record. -/
theorem claim_C2_witness :
    upsert_log_entry (some umgesetztRecord) "MISSING_BACKUP: 2024-05-01_A FOOTAGE"
        "MISSING_BACKUP" "Kritisch" "Nur auf A (500 GB)" "A" "2024-06-01" none
        (some "FOOTAGE") none = some umgesetztRecord ∧
    resolve_log_entry (some umgesetztRecord) "2024-06-01" = some umgesetztRecord :=
  claim_C2 "MISSING_BACKUP: 2024-05-01_A FOOTAGE" "MISSING_BACKUP" "Kritisch"
    "Nur auf A (500 GB)" "A" "2024-06-01" none (some "FOOTAGE") none umgesetztRecord
    (by decide)

/-! Lemmas about the dict model. -/

theorem foldl_preserve {σ α : Type} (f : σ → α → σ) (P : σ → Prop) (Q : α → Prop)
    (hf : ∀ s a, Q a → P s → P (f s a)) :
    ∀ (l : List α), (∀ a ∈ l, Q a) → ∀ s, P s → P (l.foldl f s) := by
  intro l
  induction l with
  | nil => intro _ s hs; exact hs
  | cons a l ih =>
    intro hq s hs
    exact ih (fun b hb => hq b (by simp [hb])) (f s a) (hf s a (hq a (by simp)) hs)

theorem dict_any_mem (acc : List (String × ℕ)) (k : String) :
    (acc.any (fun kv => decide (kv.1 = k)) = true) ↔ k ∈ acc.map (fun kv => kv.1) := by
  simp only [List.any_eq_true, decide_eq_true_eq, List.mem_map]

theorem dictInsert_keys (acc : List (String × ℕ)) (k : String) (v : ℕ) :
    (dictInsert acc k v).map (fun kv => kv.1)
      = if k ∈ acc.map (fun kv => kv.1) then acc.map (fun kv => kv.1)
        else acc.map (fun kv => kv.1) ++ [k] := by
  unfold dictInsert
  by_cases hk : k ∈ acc.map (fun kv => kv.1)
  · rw [if_pos ((dict_any_mem acc k).mpr hk), if_pos hk, List.map_map]
    apply List.map_congr_left
    intro kv _
    by_cases h1 : kv.1 = k
    · simp [Function.comp, h1]
    · simp [Function.comp, h1]
  · rw [if_neg (fun ha => hk ((dict_any_mem acc k).mp ha)), if_neg hk]
    simp

theorem dictInsert_mem (acc : List (String × ℕ)) (k : String) (v : ℕ)
    (kv : String × ℕ) (h : kv ∈ dictInsert acc k v) : kv ∈ acc ∨ kv = (k, v) := by
  unfold dictInsert at h
  split at h
  · obtain ⟨kv0, hkv0, hg⟩ := List.mem_map.mp h
    by_cases h1 : kv0.1 = k
    · right; rw [← hg]; simp [h1]
    · left; rw [← hg]; simp only [if_neg h1]; exact hkv0
  · rcases List.mem_append.mp h with h | h
    · left; exact h
    · right; simpa using h

theorem existingDict_keys_nodup_aux :
    ∀ (pages : List Page) (acc : List (String × ℕ)),
    ((acc.map (fun kv => kv.1)).Nodup) →
    (((pages.foldl (fun acc p => dictInsert acc p.name p.id) acc).map
      (fun kv => kv.1)).Nodup) := by
  intro pages
  induction pages with
  | nil => intro acc h; exact h
  | cons p ps ih =>
    intro acc h
    refine ih (dictInsert acc p.name p.id) ?_
    rw [dictInsert_keys]
    by_cases hk : p.name ∈ acc.map (fun kv => kv.1)
    · rw [if_pos hk]; exact h
    · rw [if_neg hk]
      simp only [List.nodup_append, List.nodup_cons, List.not_mem_nil, List.nodup_nil]
      refine ⟨h, by simp, ?_⟩
      intro a ha hb
      simp only [List.mem_singleton] at hb
      exact hk (hb ▸ ha)

theorem existingDict_keys_nodup (pages : List Page) :
    ((existingDict pages).map (fun kv => kv.1)).Nodup :=
  existingDict_keys_nodup_aux pages [] (by simp)

theorem existingDict_mem_aux (Q : String × ℕ → Prop) :
    ∀ (pages : List Page) (acc : List (String × ℕ)),
    (∀ kv ∈ acc, Q kv) → (∀ p ∈ pages, Q (p.name, p.id)) →
    ∀ kv ∈ pages.foldl (fun acc p => dictInsert acc p.name p.id) acc, Q kv := by
  intro pages
  induction pages with
  | nil => intro acc hacc _ kv hkv; exact hacc kv hkv
  | cons p ps ih =>
    intro acc hacc hp kv hkv
    refine ih (dictInsert acc p.name p.id) ?_ (fun q hq => hp q (by simp [hq])) kv hkv
    intro kv0 hkv0
    rcases dictInsert_mem acc p.name p.id kv0 hkv0 with h | h
    · exact hacc kv0 h
    · rw [h]; exact hp p (by simp)

theorem existingDict_mem (pages : List Page) (kv : String × ℕ)
    (h : kv ∈ existingDict pages) : ∃ p ∈ pages, p.name = kv.1 ∧ p.id = kv.2 := by
  refine existingDict_mem_aux (fun kv => ∃ p ∈ pages, p.name = kv.1 ∧ p.id = kv.2)
    pages [] (by simp) ?_ kv h
  intro p hp
  exact ⟨p, hp, rfl, rfl⟩

theorem existingDict_eq_map :
    ∀ (pages : List Page) (acc : List (String × ℕ)),
    ((pages.map (fun p => p.name)).Nodup) →
    (∀ p ∈ pages, p.name ∉ acc.map (fun kv => kv.1)) →
    pages.foldl (fun acc p => dictInsert acc p.name p.id) acc
      = acc ++ pages.map (fun p => (p.name, p.id)) := by
  intro pages
  induction pages with
  | nil => intro acc _ _; simp
  | cons p ps ih =>
    intro acc hnd hfresh
    have hnd' : p.name ∉ ps.map (fun p => p.name) ∧ ((ps.map (fun p => p.name)).Nodup) := by
      rw [List.map_cons, List.nodup_cons] at hnd
      exact hnd
    have hstep : dictInsert acc p.name p.id = acc ++ [(p.name, p.id)] := by
      unfold dictInsert
      rw [if_neg]
      intro hany
      exact hfresh p (by simp) ((dict_any_mem acc p.name).mp hany)
    have hfresh' : ∀ q ∈ ps, q.name ∉ (acc ++ [(p.name, p.id)]).map (fun kv => kv.1) := by
      intro q hq
      rw [List.map_append, List.mem_append]
      rintro (h | h)
      · exact hfresh q (by simp [hq]) h
      · simp only [List.map_cons, List.map_nil, List.mem_singleton] at h
        exact hnd'.1 (h ▸ List.mem_map.mpr ⟨q, hq, rfl⟩)
    rw [List.foldl_cons, hstep, ih (acc ++ [(p.name, p.id)]) hnd'.2 hfresh',
      List.map_cons, List.append_assoc, List.singleton_append]

theorem dictGet_mem (acc : List (String × ℕ)) (k : String) (v : ℕ)
    (h : dictGet acc k = some v) : (k, v) ∈ acc := by
  unfold dictGet at h
  cases hf : acc.find? (fun kv => decide (kv.1 = k)) with
  | none => rw [hf] at h; simp at h
  | some kv =>
    rw [hf] at h
    simp at h
    have hm := List.mem_of_find?_eq_some hf
    have hp := List.find?_some hf
    rw [decide_eq_true_eq] at hp
    have : kv = (k, v) := by
      obtain ⟨k0, v0⟩ := kv
      simp only at hp h
      rw [hp, h]
    rw [← this]
    exact hm

theorem dictGet_of_mem_nodup :
    ∀ (acc : List (String × ℕ)) (k : String) (v : ℕ),
    ((acc.map (fun kv => kv.1)).Nodup) → (k, v) ∈ acc → dictGet acc k = some v := by
  intro acc
  induction acc with
  | nil => intro k v _ h; simp at h
  | cons kv0 rest ih =>
    intro k v hnd hm
    have hnd' : kv0.1 ∉ rest.map (fun kv => kv.1) ∧ ((rest.map (fun kv => kv.1)).Nodup) := by
      rw [List.map_cons, List.nodup_cons] at hnd
      exact hnd
    rcases List.mem_cons.mp hm with h | h
    · unfold dictGet
      rw [List.find?_cons_of_pos]
      · rw [← h]
        rfl
      · rw [← h]; simp
    · have hk : ¬ kv0.1 = k := by
        intro he
        exact hnd'.1 (he ▸ List.mem_map.mpr ⟨(k, v), h, rfl⟩)
      unfold dictGet
      rw [List.find?_cons_of_neg]
      · exact ih k v hnd'.2 h
      · simp [hk]

/-! Lemmas about the upsert and archive phases. -/

theorem upsertStep_eq_some (e : List (String × ℕ)) (hddId : ℕ) (st : Store)
    (n : String) (pid : ℕ) (h : dictGet e n = some pid) :
    upsertStep e hddId st n = { st with pages := st.pages.map (fun p =>
      if p.id = pid then { p with name := n, hdd := some hddId } else p) } := by
  unfold upsertStep
  rw [h]

theorem upsertStep_eq_none (e : List (String × ℕ)) (hddId : ℕ) (st : Store)
    (n : String) (h : dictGet e n = none) :
    upsertStep e hddId st n
      = { pages := st.pages ++
              [{ id := st.nextId, name := n, hdd := some hddId, archived := false }]
          nextId := st.nextId + 1 } := by
  unfold upsertStep
  rw [h]

theorem upsertStep_nextId (e : List (String × ℕ)) (hddId : ℕ) (st : Store) (n : String) :
    st.nextId ≤ (upsertStep e hddId st n).nextId := by
  cases h : dictGet e n with
  | some pid => rw [upsertStep_eq_some e hddId st n pid h]
  | none => rw [upsertStep_eq_none e hddId st n h]; exact Nat.le_succ _

theorem upsertAll_nextId (e : List (String × ℕ)) (hddId : ℕ) :
    ∀ (names : List String) (st : Store),
    st.nextId ≤ (upsertAll st e hddId names).nextId := by
  intro names
  induction names with
  | nil => intro st; exact le_rfl
  | cons n rest ih =>
    intro st
    exact le_trans (upsertStep_nextId e hddId st n) (ih (upsertStep e hddId st n))

theorem upsertStep_survive (e : List (String × ℕ)) (hddId : ℕ) (st : Store)
    (n : String) (p : Page) (hp : p ∈ st.pages) :
    ∃ q ∈ (upsertStep e hddId st n).pages, q.id = p.id ∧ q.archived = p.archived := by
  cases h : dictGet e n with
  | some pid =>
    rw [upsertStep_eq_some e hddId st n pid h]
    refine ⟨_, List.mem_map_of_mem _ hp, ?_, ?_⟩ <;>
      · by_cases h1 : p.id = pid <;> simp [h1]
  | none =>
    rw [upsertStep_eq_none e hddId st n h]
    exact ⟨p, by simp [hp], rfl, rfl⟩

theorem upsertAll_survive (e : List (String × ℕ)) (hddId : ℕ) :
    ∀ (names : List String) (st : Store) (p : Page), p ∈ st.pages →
    ∃ q ∈ (upsertAll st e hddId names).pages, q.id = p.id ∧ q.archived = p.archived := by
  intro names
  induction names with
  | nil => intro st p hp; exact ⟨p, hp, rfl, rfl⟩
  | cons n rest ih =>
    intro st p hp
    obtain ⟨q, hq, hid, ha⟩ := upsertStep_survive e hddId st n p hp
    obtain ⟨q', hq', hid', ha'⟩ := ih (upsertStep e hddId st n) q hq
    exact ⟨q', hq', by rw [hid', hid], by rw [ha', ha]⟩

theorem upsertAll_witness (e : List (String × ℕ)) (hddId N : ℕ)
    (hlt : ∀ k pid, dictGet e k = some pid → pid < N)
    (hinj : ∀ k k' pid, dictGet e k = some pid → dictGet e k' = some pid → k = k') :
    ∀ (names : List String) (st : Store),
    N ≤ st.nextId →
    (∀ k pid, dictGet e k = some pid → ∃ p ∈ st.pages, p.id = pid ∧ p.archived = false) →
    ∀ n ∈ names, ∃ p ∈ (upsertAll st e hddId names).pages,
      p.name = n ∧ p.archived = false ∧ (dictGet e n = some p.id ∨ N ≤ p.id) := by
  intro names
  induction names with
  | nil => intro st _ _ n hn; simp at hn
  | cons n0 rest ih =>
    intro st hN hex n hn
    have hN1 : N ≤ (upsertStep e hddId st n0).nextId :=
      le_trans hN (upsertStep_nextId e hddId st n0)
    have hex1 : ∀ k pid, dictGet e k = some pid →
        ∃ p ∈ (upsertStep e hddId st n0).pages, p.id = pid ∧ p.archived = false := by
      intro k pid hk
      obtain ⟨p, hp, hid, ha⟩ := hex k pid hk
      obtain ⟨q, hq, hqid, hqa⟩ := upsertStep_survive e hddId st n0 p hp
      exact ⟨q, hq, by rw [hqid, hid], by rw [hqa, ha]⟩
    rcases List.mem_cons.mp hn with heq | hn'
    · subst heq
      have hW : ∃ p ∈ (upsertStep e hddId st n).pages,
          p.name = n ∧ p.archived = false ∧ (dictGet e n = some p.id ∨ N ≤ p.id) := by
        cases hd : dictGet e n with
        | some pid =>
          obtain ⟨p, hp, hid, ha⟩ := hex n pid hd
          rw [upsertStep_eq_some e hddId st n pid hd]
          refine ⟨{ p with name := n, hdd := some hddId }, ?_, rfl, ha, Or.inl ?_⟩
          · have himg : (fun p => if p.id = pid then
                { p with name := n, hdd := some hddId } else p) p
                = { p with name := n, hdd := some hddId } := by simp [hid]
            exact himg ▸ List.mem_map_of_mem _ hp
          · show (some pid : Option ℕ) = some p.id
            rw [hid]
        | none =>
          rw [upsertStep_eq_none e hddId st n hd]
          exact ⟨{ id := st.nextId, name := n, hdd := some hddId, archived := false },
            by simp, rfl, rfl, Or.inr hN⟩
      refine foldl_preserve (upsertStep e hddId)
        (fun s => ∃ p ∈ s.pages, p.name = n ∧ p.archived = false ∧
          (dictGet e n = some p.id ∨ N ≤ p.id))
        (fun _ => True) ?_ rest (fun _ _ => trivial) _ hW
      rintro s m - ⟨q, hq, hqn, hqa, hqd⟩
      cases hd : dictGet e m with
      | some pid =>
        rw [upsertStep_eq_some e hddId s m pid hd]
        by_cases hqp : q.id = pid
        · rcases hqd with hleft | hright
          · have hmn : m = n := hinj m n pid hd (by rw [hleft, hqp])
            refine ⟨{ q with name := m, hdd := some hddId }, ?_, hmn, hqa, Or.inl ?_⟩
            · have himg : (fun p => if p.id = pid then
                  { p with name := m, hdd := some hddId } else p) q
                  = { q with name := m, hdd := some hddId } := by simp [hqp]
              exact himg ▸ List.mem_map_of_mem _ hq
            · show dictGet e n = some q.id
              exact hleft
          · exact absurd (hlt m pid hd) (by omega)
        · refine ⟨q, ?_, hqn, hqa, hqd⟩
          have himg : (fun p => if p.id = pid then
              { p with name := m, hdd := some hddId } else p) q = q := by
            simp [hqp]
          exact himg ▸ List.mem_map_of_mem _ hq
      | none =>
        rw [upsertStep_eq_none e hddId s m hd]
        exact ⟨q, by simp [hq], hqn, hqa, hqd⟩
    · exact ih (upsertStep e hddId st n0) hN1 hex1 n hn'

theorem upsertAll_pages_cases (e : List (String × ℕ)) (hddId : ℕ) (S : List String)
    (names : List String) (hsub : ∀ n ∈ names, n ∈ S)
    (st : Store) (base : List Page)
    (hbase : ∀ q ∈ st.pages, q.name ∈ S ∨ q ∈ base) :
    ∀ q ∈ (upsertAll st e hddId names).pages, q.name ∈ S ∨ q ∈ base := by
  refine foldl_preserve (upsertStep e hddId)
    (fun s => ∀ q ∈ s.pages, q.name ∈ S ∨ q ∈ base) (fun n => n ∈ S) ?_ names hsub st hbase
  intro s m hm hP q hq
  cases hd : dictGet e m with
  | some pid =>
    rw [upsertStep_eq_some e hddId s m pid hd] at hq
    obtain ⟨q0, hq0, rfl⟩ := List.mem_map.mp hq
    by_cases h1 : q0.id = pid
    · left
      simp only [if_pos h1]
      exact hm
    · simp only [if_neg h1]
      exact hP q0 hq0
  | none =>
    rw [upsertStep_eq_none e hddId s m hd] at hq
    rcases List.mem_append.mp hq with h | h
    · exact hP q h
    · left
      simp only [List.mem_singleton] at h
      rw [h]
      exact hm

theorem archive_foldl_eq : ∀ (pids : List ℕ) (pages : List Page),
    pids.foldl archiveOne pages
      = pages.map (fun p => if p.id ∈ pids then { p with archived := true } else p) := by
  intro pids
  induction pids with
  | nil => intro pages; simp
  | cons pid pids ih =>
    intro pages
    rw [List.foldl_cons, ih,
      show archiveOne pages pid = pages.map (fun p =>
        if p.id = pid then { p with archived := true } else p) from rfl,
      List.map_map]
    apply List.map_congr_left
    intro p _
    by_cases h1 : p.id = pid <;> by_cases h2 : p.id ∈ pids <;>
      simp [Function.comp, h1, h2]

/-- Claim C5: after reconciling one volume's scan report, every name of
the current scan exists unarchived in the store; every previously
stored entry of that volume whose name was not seen is archived
(soft-delete, no page is ever removed); and reconciling the identical
report a second time archives nothing further. The hypotheses are the
store invariants: distinct page ids below the id counter, and unique
entry names within the volume's current snapshot. -/
theorem claim_C5 (st : Store) (hddId : ℕ) (r : Report)
    (hwf : StoreWF st)
    (hq : ((queryVolume st hddId).map (fun p => p.name)).Nodup) :
    (∀ n ∈ scannedNames r, ∃ p ∈ (sync_projects st hddId r).pages,
        p.name = n ∧ p.archived = false) ∧
    (∀ p ∈ queryVolume st hddId, p.name ∉ scannedNames r →
        ∃ q ∈ (sync_projects st hddId r).pages, q.id = p.id ∧ q.archived = true) ∧
    (∀ p ∈ st.pages, ∃ q ∈ (sync_projects st hddId r).pages, q.id = p.id) ∧
    archivedThisPass (sync_projects st hddId r) hddId r = [] := by
  obtain ⟨hids, hlt⟩ := hwf
  have hpages : (sync_projects st hddId r).pages
      = ((upsertAll st (existingDict (queryVolume st hddId)) hddId
            (scannedNames r)).pages).map
          (fun p => if p.id ∈ orphanIds (existingDict (queryVolume st hddId))
              (scannedNames r)
            then { p with archived := true } else p) := by
    show (orphanIds (existingDict (queryVolume st hddId)) (scannedNames r)).foldl
        archiveOne (upsertAll st (existingDict (queryVolume st hddId)) hddId
          (scannedNames r)).pages = _
    rw [archive_foldl_eq]
  have hQmem : ∀ p ∈ queryVolume st hddId, p ∈ st.pages :=
    fun p hp => List.mem_of_mem_filter hp
  have hQprops : ∀ p ∈ queryVolume st hddId, p.archived = false ∧ p.hdd = some hddId := by
    intro p hp
    have hp' := List.of_mem_filter hp
    simp only [Bool.and_eq_true, Bool.not_eq_true', decide_eq_true_eq] at hp'
    exact hp'
  have hQid : ((queryVolume st hddId).map (fun p => p.id)).Nodup := by
    have hsub : List.Sublist ((queryVolume st hddId).map (fun p => p.id))
        (st.pages.map (fun p => p.id)) :=
      (List.filter_sublist _).map _
    exact List.Nodup.sublist hsub hids
  have hF1 : existingDict (queryVolume st hddId)
      = (queryVolume st hddId).map (fun p => (p.name, p.id)) := by
    have h0 := existingDict_eq_map (queryVolume st hddId) [] hq (by simp)
    simpa [existingDict] using h0
  have hget_mem : ∀ k pid,
      dictGet (existingDict (queryVolume st hddId)) k = some pid →
      ∃ p ∈ queryVolume st hddId, p.name = k ∧ p.id = pid := by
    intro k pid h
    have hmem := dictGet_mem _ k pid h
    rw [hF1] at hmem
    obtain ⟨p, hp, hpk⟩ := List.mem_map.mp hmem
    exact ⟨p, hp, congrArg Prod.fst hpk, congrArg Prod.snd hpk⟩
  have hget_lt : ∀ k pid,
      dictGet (existingDict (queryVolume st hddId)) k = some pid →
      pid < st.nextId := by
    intro k pid h
    obtain ⟨p, hp, -, hpid⟩ := hget_mem k pid h
    exact hpid ▸ hlt p (hQmem p hp)
  have hget_ex : ∀ k pid,
      dictGet (existingDict (queryVolume st hddId)) k = some pid →
      ∃ p ∈ st.pages, p.id = pid ∧ p.archived = false := by
    intro k pid h
    obtain ⟨p, hp, -, hpid⟩ := hget_mem k pid h
    exact ⟨p, hQmem p hp, hpid, (hQprops p hp).1⟩
  have hinj : ∀ k k' pid,
      dictGet (existingDict (queryVolume st hddId)) k = some pid →
      dictGet (existingDict (queryVolume st hddId)) k' = some pid → k = k' := by
    intro k k' pid h h'
    obtain ⟨p, hp, hk, hpid⟩ := hget_mem k pid h
    obtain ⟨p', hp', hk', hpid'⟩ := hget_mem k' pid h'
    have heq : p = p' := List.inj_on_of_nodup_map hQid hp hp' (by rw [hpid, hpid'])
    rw [← hk, ← hk', heq]
  have hkeys := existingDict_keys_nodup (queryVolume st hddId)
  have hmemget : ∀ k v, (k, v) ∈ existingDict (queryVolume st hddId) →
      dictGet (existingDict (queryVolume st hddId)) k = some v :=
    fun k v h => dictGet_of_mem_nodup _ k v hkeys h
  have horph_mem : ∀ pid,
      pid ∈ orphanIds (existingDict (queryVolume st hddId)) (scannedNames r) →
      ∃ k, (k, pid) ∈ existingDict (queryVolume st hddId) ∧ k ∉ scannedNames r := by
    intro pid h
    obtain ⟨⟨a, b⟩, hkv, hif⟩ := List.mem_filterMap.mp h
    by_cases hks : a ∈ scannedNames r
    · rw [if_pos hks] at hif; simp at hif
    · rw [if_neg hks] at hif
      simp only [Option.some.injEq] at hif
      subst hif
      exact ⟨a, hkv, hks⟩
  have horph_of : ∀ p ∈ queryVolume st hddId, p.name ∉ scannedNames r →
      p.id ∈ orphanIds (existingDict (queryVolume st hddId)) (scannedNames r) := by
    intro p hp hns
    refine List.mem_filterMap.mpr ⟨(p.name, p.id), ?_, ?_⟩
    · rw [hF1]; exact List.mem_map_of_mem _ hp
    · rw [if_neg hns]
  refine ⟨?_, ?_, ?_, ?_⟩
  · intro n hn
    obtain ⟨p, hp1, hpn, hpa, hdisj⟩ :=
      upsertAll_witness (existingDict (queryVolume st hddId)) hddId st.nextId
        hget_lt hinj (scannedNames r) st le_rfl hget_ex n hn
    have hnotorph : p.id ∉ orphanIds (existingDict (queryVolume st hddId))
        (scannedNames r) := by
      intro horph
      obtain ⟨k, hk, hks⟩ := horph_mem p.id horph
      rcases hdisj with hleft | hright
      · have hkn := hinj k n p.id (hmemget k p.id hk) hleft
        rw [hkn] at hks
        exact hks hn
      · exact absurd (hget_lt k p.id (hmemget k p.id hk)) (by omega)
    rw [hpages]
    refine ⟨_, List.mem_map_of_mem _ hp1, ?_, ?_⟩
    · rw [if_neg hnotorph]; exact hpn
    · rw [if_neg hnotorph]; exact hpa
  · intro p hp hns
    have hporph := horph_of p hp hns
    obtain ⟨q, hq, hqid, -⟩ :=
      upsertAll_survive (existingDict (queryVolume st hddId)) hddId
        (scannedNames r) st p (hQmem p hp)
    have hqorph : q.id ∈ orphanIds (existingDict (queryVolume st hddId))
        (scannedNames r) := by
      rw [hqid]; exact hporph
    rw [hpages]
    refine ⟨_, List.mem_map_of_mem _ hq, ?_, ?_⟩
    · rw [if_pos hqorph]; exact hqid
    · rw [if_pos hqorph]
  · intro p hp
    obtain ⟨q, hq, hqid, -⟩ :=
      upsertAll_survive (existingDict (queryVolume st hddId)) hddId
        (scannedNames r) st p hp
    rw [hpages]
    by_cases horph : q.id ∈ orphanIds (existingDict (queryVolume st hddId))
        (scannedNames r)
    · exact ⟨_, List.mem_map_of_mem _ hq, by rw [if_pos horph]; exact hqid⟩
    · exact ⟨_, List.mem_map_of_mem _ hq, by rw [if_neg horph]; exact hqid⟩
  · unfold archivedThisPass orphanIds
    rw [List.filterMap_eq_nil_iff]
    intro kv hkv
    have hname : kv.1 ∈ scannedNames r := by
      obtain ⟨p', hp', hpk, -⟩ := existingDict_mem _ kv hkv
      rw [← hpk]
      have hpf := List.of_mem_filter hp'
      simp only [Bool.and_eq_true, Bool.not_eq_true', decide_eq_true_eq] at hpf
      have hp'pages : p' ∈ (sync_projects st hddId r).pages :=
        List.mem_of_mem_filter hp'
      rw [hpages] at hp'pages
      obtain ⟨q, hq, hfq⟩ := List.mem_map.mp hp'pages
      by_cases horph : q.id ∈ orphanIds (existingDict (queryVolume st hddId))
          (scannedNames r)
      · exfalso
        rw [if_pos horph] at hfq
        rw [← hfq] at hpf
        exact absurd hpf.1 (by simp)
      · rw [if_neg horph] at hfq
        subst hfq
        rcases upsertAll_pages_cases (existingDict (queryVolume st hddId)) hddId
            (scannedNames r) (scannedNames r) (fun x hx => hx) st st.pages
            (fun x hx => Or.inr hx) q hq with hS | hbase
        · exact hS
        · by_contra hns
          refine horph (horph_of q ?_ hns)
          simp only [queryVolume, List.mem_filter]
          refine ⟨hbase, ?_⟩
          simp only [Bool.and_eq_true, Bool.not_eq_true', decide_eq_true_eq]
          exact hpf
    rw [if_pos hname]

/-- Witness for claim C5 at a concrete store and report. -/
theorem claim_C5_witness :
    (∀ n ∈ scannedNames reportExample,
        ∃ p ∈ (sync_projects storeExample 7 reportExample).pages,
          p.name = n ∧ p.archived = false) ∧
    (∀ p ∈ queryVolume storeExample 7, p.name ∉ scannedNames reportExample →
        ∃ q ∈ (sync_projects storeExample 7 reportExample).pages,
          q.id = p.id ∧ q.archived = true) ∧
    (∀ p ∈ storeExample.pages,
        ∃ q ∈ (sync_projects storeExample 7 reportExample).pages, q.id = p.id) ∧
    archivedThisPass (sync_projects storeExample 7 reportExample) 7 reportExample = [] :=
  claim_C5 storeExample 7 reportExample ⟨by decide, by decide⟩ (by decide)
